import Mathlib

/-
  Shallow embedding of `src/collector.rs` (ClarkGuan/pprof-rs).

  The source is a bounded-memory frequency counter:
  `Entry`, `Bucket` (4-way associative slot group), `StackHashCounter`
  (array of buckets routed by hash), `TempFdArray` (staging buffer plus a
  backing temporary file), and `Collector` composing the last two.

  Modelling conventions:
  - `usize` counts and indices become `Nat`.
  - A bucket's occupied prefix `entries[0..length]` becomes the list
    `entries`; the `length` field of the source is `entries.length`.
    Slots past `length` are uninitialized in the source and are never read,
    so they are not represented.
  - The staging buffer of `TempFdArray` keeps all `BUFFER_LENGTH` slots as a
    list (its initial content is an arbitrary parameter, standing for the
    uninitialized array), because `flush_buffer` writes the whole array.
  - `std::fs::File` keeps one offset shared by reads and writes; it is
    modelled as the record list `file_data` plus the offset `file_pos`.
    `write_all` writes at the offset and advances it; `read_to_end` reads
    from the offset to the end and leaves the offset there.
  - Fallible I/O takes a Boolean oracle `ok` telling whether the underlying
    write succeeds, and returns `Except Unit Unit` next to the new state,
    mirroring `std::io::Result<()>` on `&mut self`.
  - The hash (`DefaultHasher`) and the constants `BUCKETS` / `BUFFER_LENGTH`
    depend on the environment, so they are parameters (`hash`, the bucket
    count is the length of the bucket list, `M`); `BUCKETS_ASSOCIATIVITY`
    is the source constant 4.
-/

namespace Pprof

/-- BUCKETS_ASSOCIATIVITY from `collector.rs` line 9. -/
def BUCKETS_ASSOCIATIVITY : Nat := 4

/-- Entry from `collector.rs` lines 12-15: a (key, count) record. -/
structure Entry (α : Type) where
  item : α
  count : Nat
  deriving DecidableEq

/-- Bucket from `collector.rs` lines 17-20: the occupied prefix
`entries[0..length]` is the list; `length` is `entries.length`. -/
structure Bucket (α : Type) where
  entries : List (Entry α)
  deriving DecidableEq

/-- Bucket has `length` as a field in the source; here it is derived. -/
def Bucket.length {α : Type} (b : Bucket α) : Nat := b.entries.length

/-- Bucket::default from `collector.rs` lines 22-29: length 0. -/
def Bucket.init {α : Type} : Bucket α := { entries := [] }

/-- The keys of the occupied entries, in slot order. -/
def Bucket.items {α : Type} (b : Bucket α) : List α := b.entries.map Entry.item

/-- The inner loop of the full-bucket case of Bucket::add
(`collector.rs` lines 51-59): left-to-right scan keeping the index of the
first minimal count seen so far. `idx` is the absolute index of the head of
the remaining list. -/
def minIndexScan : List Nat → Nat → Nat → Nat → Nat
  | [], _, minIdx, _ => minIdx
  | c :: rest, idx, minIdx, minCount =>
    if c < minCount then minIndexScan rest (idx + 1) idx c
    else minIndexScan rest (idx + 1) minIdx minCount

/-- Index of the first minimal element: `min_index`/`min_count` start at
slot 0 and the loop runs over all occupied slots, as in the source. -/
def minIndex (cs : List Nat) : Nat :=
  match cs with
  | [] => 0
  | c :: _ => minIndexScan cs 0 0 c

/-- Bucket::add from `collector.rs` lines 32-68. The first pass increments
every entry whose item equals `key` and records whether any matched; when
none matched that pass is the identity, so the later branches read
`b.entries` unchanged. -/
def Bucket.add {α : Type} [DecidableEq α] (b : Bucket α) (key : α) :
    Bucket α × Option (Entry α) :=
  let done := b.entries.any fun e => decide (e.item = key)
  if done then
    ({ entries := b.entries.map fun e =>
        if e.item = key then { e with count := e.count + 1 } else e }, none)
  else if b.entries.length < BUCKETS_ASSOCIATIVITY then
    ({ entries := b.entries ++ [{ item := key, count := 1 }] }, none)
  else
    let i := minIndex (b.entries.map Entry.count)
    ({ entries := b.entries.set i { item := key, count := 1 } },
      b.entries.get? i)

/-- Folding a list of keys through Bucket::add, keeping only the state. -/
def Bucket.addList {α : Type} [DecidableEq α] (b : Bucket α) (ks : List α) :
    Bucket α :=
  ks.foldl (fun b k => (b.add k).1) b

/-- Folding a list of keys through Bucket::add, collecting the evicted
entries in order. -/
def Bucket.addListEv {α : Type} [DecidableEq α] :
    Bucket α → List α → Bucket α × List (Entry α)
  | b, [] => (b, [])
  | b, k :: rest =>
    let r := b.add k
    let r2 := Bucket.addListEv r.1 rest
    (r2.1, r.2.toList ++ r2.2)

/-- BucketIterator from `collector.rs` lines 78-81. -/
structure BucketIterator (α : Type) where
  related_bucket : Bucket α
  index : Nat

/-- BucketIterator::next from `collector.rs` lines 86-93: yield the entry at
`index` and advance, until `index` reaches the occupied length. -/
def BucketIterator.next {α : Type} (it : BucketIterator α) :
    Option (Entry α) × BucketIterator α :=
  if h : it.index < it.related_bucket.entries.length then
    (some (it.related_bucket.entries.get ⟨it.index, h⟩),
      { it with index := it.index + 1 })
  else (none, it)

/-- Driving a BucketIterator until `next` returns `none` (with fuel, which
`Bucket.iterList` supplies in sufficient amount). -/
def BucketIterator.collectFuel {α : Type} :
    Nat → BucketIterator α → List (Entry α)
  | 0, _ => []
  | n + 1, it =>
    match it.next with
    | (some e, it2) => e :: BucketIterator.collectFuel n it2
    | (none, _) => []

/-- Bucket::iter from `collector.rs` lines 70-75, materialized: the sequence
a fresh BucketIterator yields. -/
def Bucket.iterList {α : Type} (b : Bucket α) : List (Entry α) :=
  BucketIterator.collectFuel b.entries.length
    { related_bucket := b, index := 0 }

/-- StackHashCounter from `collector.rs` lines 96-98: `BUCKETS` buckets;
the bucket count is the length of the list. -/
structure StackHashCounter (α : Type) where
  buckets : List (Bucket α)
  deriving DecidableEq

/-- StackHashCounter::add from `collector.rs` lines 120-125: route to the
bucket at `hash key % BUCKETS` and delegate. The `none` fallback is dead
for the source (the bucket array is never empty). -/
def StackHashCounter.add {α : Type} [DecidableEq α] (hash : α → Nat)
    (s : StackHashCounter α) (key : α) :
    StackHashCounter α × Option (Entry α) :=
  let i := hash key % s.buckets.length
  match s.buckets.get? i with
  | some b =>
    let r := b.add key
    ({ buckets := s.buckets.set i r.1 }, r.2)
  | none => (s, none)

/-- StackHashCounter::iter from `collector.rs` lines 127-135: chain every
bucket's iterator in bucket-index order. -/
def StackHashCounter.iter {α : Type} (s : StackHashCounter α) :
    List (Entry α) :=
  (s.buckets.map Bucket.iterList).flatten

/-- TempFdArray from `collector.rs` lines 138-143. `buffer` keeps all
`BUFFER_LENGTH` slots; `buffer_index` is the cursor; `file_data`/`file_pos`
model the backing `File` content and its single read/write offset. -/
structure TempFdArray (α : Type) where
  file_data : List α
  file_pos : Nat
  buffer : List α
  buffer_index : Nat
  deriving DecidableEq

/-- TempFdArray::new from `collector.rs` lines 146-154: empty file, cursor 0;
`init` stands for the uninitialized staging array (length `BUFFER_LENGTH`). -/
def TempFdArray.new {α : Type} (init : List α) : TempFdArray α :=
  { file_data := [], file_pos := 0, buffer := init, buffer_index := 0 }

/-- File::write_all: write `buf` at the current offset (overwriting, and
extending at end of file) and advance the offset past it. -/
def TempFdArray.writeAll {α : Type} (s : TempFdArray α) (buf : List α) :
    TempFdArray α :=
  { s with
    file_data := s.file_data.take s.file_pos ++ buf ++
      s.file_data.drop (s.file_pos + buf.length),
    file_pos := s.file_pos + buf.length }

/-- TempFdArray::flush_buffer from `collector.rs` lines 156-167: reset the
cursor to 0 FIRST, then write the whole staging array to the file; `ok`
tells whether that write succeeds. -/
def TempFdArray.flushBuffer {α : Type} (ok : Bool) (s : TempFdArray α) :
    TempFdArray α × Except Unit Unit :=
  let s1 := { s with buffer_index := 0 }
  if ok then (s1.writeAll s1.buffer, Except.ok ())
  else (s1, Except.error ())

/-- TempFdArray::push from `collector.rs` lines 169-178: flush when the
cursor has reached `M` (`BUFFER_LENGTH`), propagating a flush error via `?`;
otherwise (or after a successful flush) store at the cursor and advance. -/
def TempFdArray.push {α : Type} (M : Nat) (ok : Bool) (s : TempFdArray α)
    (entry : α) : TempFdArray α × Except Unit Unit :=
  let fr := if M ≤ s.buffer_index then s.flushBuffer ok
    else (s, Except.ok ())
  match fr with
  | (s1, Except.ok _) =>
    ({ s1 with
      buffer := s1.buffer.set s1.buffer_index entry,
      buffer_index := s1.buffer_index + 1 }, Except.ok ())
  | (s1, Except.error e) => (s1, Except.error e)

/-- TempFdArray::iter from `collector.rs` lines 180-189: `read_to_end` the
file from its CURRENT offset into `file_vec`, reinterpret it as records,
and chain the staged prefix `buffer[0..buffer_index]` first, then the
records just read. -/
def TempFdArray.iter {α : Type} (s : TempFdArray α) :
    TempFdArray α × List α :=
  let file_vec := s.file_data.drop s.file_pos
  ({ s with file_pos := s.file_data.length },
    s.buffer.take s.buffer_index ++ file_vec)

/-- Collector from `collector.rs` lines 192-195. -/
structure Collector (α : Type) where
  map : StackHashCounter α
  temp_array : TempFdArray (Entry α)

/-- Collector::add from `collector.rs` lines 205-211: delegate to the map;
push any evicted entry into the overflow array, propagating its error. -/
def Collector.add {α : Type} [DecidableEq α] (hash : α → Nat) (M : Nat)
    (ok : Bool) (c : Collector α) (key : α) :
    Collector α × Except Unit Unit :=
  let r := c.map.add hash key
  match r.2 with
  | some evict =>
    let p := c.temp_array.push M ok evict
    ({ map := r.1, temp_array := p.1 }, p.2)
  | none => ({ map := r.1, temp_array := c.temp_array }, Except.ok ())

/-- Collector::iter from `collector.rs` lines 213-215: the map's entries
chained with the overflow array's drain. -/
def Collector.iter {α : Type} (c : Collector α) :
    Collector α × List (Entry α) :=
  let r := c.temp_array.iter
  ({ c with temp_array := r.1 }, c.map.iter ++ r.2)

/-- States of a TempFdArray reachable from `new` by `push` (with either
I/O outcome) and `iter`; `hinit` fixes the staging array's capacity. -/
inductive TempFdArray.Reachable {α : Type} (M : Nat) : TempFdArray α → Prop
  | new (init : List α) (hinit : init.length = M) :
      TempFdArray.Reachable M (TempFdArray.new init)
  | push (s : TempFdArray α) (ok : Bool) (e : α)
      (hs : TempFdArray.Reachable M s) :
      TempFdArray.Reachable M (TempFdArray.push M ok s e).1
  | iter (s : TempFdArray α) (hs : TempFdArray.Reachable M s) :
      TempFdArray.Reachable M (TempFdArray.iter s).1

/-! Step lemmas for TempFdArray, spelling out each branch of `push`. -/

theorem TempFdArray.push_not_full {α : Type} (M : Nat) (ok : Bool)
    (s : TempFdArray α) (e : α) (h : ¬ M ≤ s.buffer_index) :
    s.push M ok e =
      ({ s with
        buffer := s.buffer.set s.buffer_index e,
        buffer_index := s.buffer_index + 1 }, Except.ok ()) := by
  simp [TempFdArray.push, h]

theorem TempFdArray.push_full_ok {α : Type} (M : Nat) (s : TempFdArray α)
    (e : α) (h : M ≤ s.buffer_index) :
    s.push M true e =
      ({ file_data := s.file_data.take s.file_pos ++ s.buffer ++
           s.file_data.drop (s.file_pos + s.buffer.length),
         file_pos := s.file_pos + s.buffer.length,
         buffer := s.buffer.set 0 e,
         buffer_index := 1 }, Except.ok ()) := by
  simp [TempFdArray.push, h, TempFdArray.flushBuffer, TempFdArray.writeAll]

theorem TempFdArray.push_full_err {α : Type} (M : Nat) (s : TempFdArray α)
    (e : α) (h : M ≤ s.buffer_index) :
    s.push M false e = ({ s with buffer_index := 0 }, Except.error ()) := by
  simp [TempFdArray.push, h, TempFdArray.flushBuffer]

/-- The overflow-log invariant: the file offset sits at end of file (every
operation leaves it there), the staging array keeps its capacity, the file
holds a whole number of flushed blocks, and the cursor stays within the
staging array. -/
theorem TempFdArray.reachable_inv {α : Type} {M : Nat} {s : TempFdArray α}
    (hM : 1 ≤ M) (hs : TempFdArray.Reachable M s) :
    s.file_pos = s.file_data.length ∧ s.buffer.length = M ∧
    M ∣ s.file_data.length ∧ s.buffer_index ≤ M := by
  induction hs with
  | new init hinit => simp [TempFdArray.new, hinit]
  | push s ok e hs ih =>
    obtain ⟨h1, h2, h3, h4⟩ := ih
    by_cases hfull : M ≤ s.buffer_index
    · cases ok with
      | false =>
        rw [TempFdArray.push_full_err M s e hfull]
        exact ⟨h1, h2, h3, Nat.zero_le M⟩
      | true =>
        rw [TempFdArray.push_full_ok M s e hfull]
        refine ⟨?_, ?_, ?_, hM⟩
        · simp [h1, h2]
        · simp [h2]
        · simp only [h1, h2, List.take_of_length_le (Nat.le_refl _),
            List.drop_eq_nil_of_le (Nat.le_add_right _ _), List.append_nil,
            List.length_append]
          exact Nat.dvd_add h3 (Dvd.intro_left 1 (Nat.one_mul M))
    · rw [TempFdArray.push_not_full M ok s e hfull]
      exact ⟨h1, by simpa using h2, h3, Nat.succ_le_of_lt (Nat.lt_of_not_le hfull)⟩
  | iter s hs ih =>
    obtain ⟨h1, h2, h3, h4⟩ := ih
    exact ⟨rfl, h2, h3, h4⟩

/-- Sum of `count` over the entries of `l` whose `item` equals `k` (the
aggregation the Collector's sum invariant speaks about). -/
def sumCounts {α : Type} [DecidableEq α] (l : List (Entry α)) (k : α) : Nat :=
  (l.filter fun e => decide (e.item = k)).foldl (fun a e => a + e.count) 0

/-- C10: `TempFdArray::iter` leaves the staging buffer, the cursor and the
file content unchanged; only the file's read position is consumed (it ends
at end-of-file), so the still-staged prefix remains staged after a drain. -/
theorem c10_iter_frame {α : Type} (s : TempFdArray α) :
    (s.iter).1.buffer = s.buffer ∧
    (s.iter).1.buffer_index = s.buffer_index ∧
    (s.iter).1.file_data = s.file_data ∧
    (s.iter).1.file_pos = s.file_data.length ∧
    (s.iter).1.buffer.take (s.iter).1.buffer_index =
      s.buffer.take s.buffer_index :=
  ⟨rfl, rfl, rfl, rfl, rfl⟩

/-- C2 (amended): on every reachable overflow-log state, `iter` produces
exactly the still-unflushed staging prefix `buffer[0..buffer_index]` in
slot order; the file contributes nothing, because the file offset is
already at end-of-file when `read_to_end` runs. -/
theorem c2_amended_drain {α : Type} {M : Nat} {s : TempFdArray α}
    (hM : 1 ≤ M) (hs : TempFdArray.Reachable M s) :
    (s.iter).2 = s.buffer.take s.buffer_index := by
  obtain ⟨h1, -, -, -⟩ := TempFdArray.reachable_inv hM hs
  simp [TempFdArray.iter, h1]

/-- Concrete overflow log (capacity 1): push 10 (staged), push 20 (flushes
10 to the file, stages 20). -/
def c2s : TempFdArray Nat :=
  (TempFdArray.push 1 true (TempFdArray.push 1 true
    (TempFdArray.new [0]) 10).1 20).1

theorem c2s_reachable : TempFdArray.Reachable 1 c2s :=
  TempFdArray.Reachable.push _ true 20
    (TempFdArray.Reachable.push _ true 10
      (TempFdArray.Reachable.new [0] rfl))

theorem c2_amended_drain_witness :
    (TempFdArray.iter c2s).2 = c2s.buffer.take c2s.buffer_index :=
  c2_amended_drain (Nat.le_refl 1) c2s_reachable

/-- C2 (counterexample): on `c2s` the record 10 is file-resident and 20 is
staged, so the claimed drain would be [10, 20]; the code yields [20] — the
staged prefix comes first and the flushed record never reappears. -/
theorem c2_counterexample :
    c2s.file_data = [10] ∧
    c2s.buffer.take c2s.buffer_index = [20] ∧
    (TempFdArray.iter c2s).2 = [20] ∧
    (TempFdArray.iter c2s).2 ≠ [10, 20] := by
  refine ⟨rfl, rfl, rfl, ?_⟩
  decide

/-- C3 (amended): `push` on a full staging buffer resets the cursor to 0
FIRST and then writes all `M` buffered slots to the backing file as one
contiguous block in slot order, before appending the new entry at slot 0
(cursor 1); a flush I/O error propagates to the caller through `push` and
through `Collector::add`, with the cursor already reset to 0. -/
theorem c3_amended_push {α : Type} [DecidableEq α] (M : Nat)
    (s : TempFdArray α) (e : α) (h : M ≤ s.buffer_index) :
    s.push M false e = ({ s with buffer_index := 0 }, Except.error ()) ∧
    s.push M true e =
      ({ file_data := s.file_data.take s.file_pos ++ s.buffer ++
           s.file_data.drop (s.file_pos + s.buffer.length),
         file_pos := s.file_pos + s.buffer.length,
         buffer := s.buffer.set 0 e,
         buffer_index := 1 }, Except.ok ()) ∧
    (∀ (hash : α → Nat) (c : Collector α) (key : α),
      M ≤ c.temp_array.buffer_index →
      ((c.map.add hash key).2).isSome = true →
      (Collector.add hash M false c key).2 = Except.error ()) := by
  refine ⟨TempFdArray.push_full_err M s e h,
    TempFdArray.push_full_ok M s e h, ?_⟩
  intro hash c key hc hsome
  cases hev : (c.map.add hash key).2 with
  | none => rw [hev] at hsome; simp at hsome
  | some ev =>
    have hstep : (Collector.add hash M false c key).2 =
        (TempFdArray.push M false c.temp_array ev).2 := by
      simp [Collector.add, hev]
    rw [hstep, TempFdArray.push_full_err M c.temp_array ev hc]

/-- Concrete full overflow log (capacity 1) holding the staged record 10. -/
def c3s : TempFdArray Nat :=
  (TempFdArray.push 1 true (TempFdArray.new [0]) 10).1

theorem c3_amended_push_witness :
    (TempFdArray.push 1 false c3s 20 =
      ({ c3s with buffer_index := 0 }, Except.error ())) ∧
    (TempFdArray.push 1 true c3s 20).1.file_data = [10] :=
  ⟨(c3_amended_push 1 c3s 20 (Nat.le_refl 1)).1, rfl⟩

/-- C3 (counterexample): the claim says the cursor is reset only AFTER the
flush write; but on a failed flush of the full log `c3s` the error
propagates while the cursor is already 0 (not still 1 = M) and nothing
reached the file, so the buffered record was dropped before the write was
known to succeed. -/
theorem c3_counterexample :
    (TempFdArray.push 1 false c3s 20).2 = Except.error () ∧
    (TempFdArray.push 1 false c3s 20).1.buffer_index = 0 ∧
    (TempFdArray.push 1 false c3s 20).1.file_data = [] ∧
    (TempFdArray.push 1 false c3s 20).1.buffer_index ≠ c3s.buffer_index := by
  refine ⟨rfl, rfl, rfl, ?_⟩
  decide

/-- Auxiliary: the sum of a constant-length map. -/
theorem list_sum_map_const {β : Type} (l : List β) (c : Nat) :
    (l.map fun _ => c).sum = l.length * c := by
  induction l with
  | nil => simp
  | cons x xs ih => simp [ih, Nat.succ_mul, Nat.add_comm]

/-- C9: every flush appends exactly the `M` staging slots to the file, so a
reachable file always holds a whole multiple of `M` records; under any
fixed-size encoding of records (`rs` bytes each) the file's byte length is
exactly `record count * rs`, with no partial record. -/
theorem c9_whole_records {α : Type} {M : Nat} {s : TempFdArray α}
    (hM : 1 ≤ M) (hs : TempFdArray.Reachable M s) :
    s.buffer.length = M ∧
    (s.flushBuffer true).1.file_data = s.file_data ++ s.buffer ∧
    M ∣ s.file_data.length ∧
    (∀ (rs : Nat) (enc : α → List Bool), (∀ a, (enc a).length = rs) →
      ((s.file_data.map enc).flatten).length = s.file_data.length * rs ∧
      M * rs ∣ ((s.file_data.map enc).flatten).length) := by
  obtain ⟨h1, h2, h3, -⟩ := TempFdArray.reachable_inv hM hs
  have hflush : (s.flushBuffer true).1.file_data = s.file_data ++ s.buffer := by
    simp [TempFdArray.flushBuffer, TempFdArray.writeAll, h1,
      List.take_of_length_le (Nat.le_refl _),
      List.drop_eq_nil_of_le (Nat.le_add_right _ _)]
  have hbytes : ∀ (rs : Nat) (enc : α → List Bool),
      (∀ a, (enc a).length = rs) →
      ((s.file_data.map enc).flatten).length = s.file_data.length * rs := by
    intro rs enc henc
    rw [List.length_flatten, List.map_map]
    have : (List.length ∘ enc) = fun _ => rs := by
      funext a
      exact henc a
    rw [this, list_sum_map_const]
  refine ⟨h2, hflush, h3, fun rs enc henc => ⟨hbytes rs enc henc, ?_⟩⟩
  rw [hbytes rs enc henc]
  exact Nat.mul_dvd_mul h3 (Nat.dvd_refl rs)

/-- The fixed-size encoding used by the C9 witness: two booleans per
record. -/
def c9enc : Nat → List Bool := fun _ => [true, false]

theorem c9_whole_records_witness :
    c2s.buffer.length = 1 ∧
    (TempFdArray.flushBuffer true c2s).1.file_data =
      c2s.file_data ++ c2s.buffer ∧
    1 ∣ c2s.file_data.length ∧
    ((c2s.file_data.map c9enc).flatten).length =
      c2s.file_data.length * 2 := by
  obtain ⟨a, b, c, d⟩ := c9_whole_records (Nat.le_refl 1) c2s_reachable
  exact ⟨a, b, c, (d 2 c9enc fun a => rfl).1⟩

/-- The stand-in hash for the Collector scenario: with a single bucket the
routed index is `hash key % 1 = 0` whatever the hash. -/
def c1Hash : Nat → Nat := fun k => k

/-- A Collector with one bucket and an overflow staging capacity of 1 (the
staging array starts with one junk slot, standing for uninitialized
memory). -/
def c1Init : Collector Nat :=
  { map := { buckets := [Bucket.init] },
    temp_array := TempFdArray.new [{ item := 0, count := 0 }] }

/-- The Collector after adding the keys 1..6 once each (all I/O succeeds):
adding 5 evicts (1,1) into the staging buffer; adding 6 flushes (1,1) to
the backing file and evicts (5,1) into the staging buffer. -/
def c1Final : Collector Nat :=
  [1, 2, 3, 4, 5, 6].foldl
    (fun c k => (Collector.add c1Hash 1 true c k).1) c1Init

/-- C1: the sum invariant fails once a flush has happened. After adding
each of 1..6 once, the drain holds no entry for key 1 (sum 0, one add),
even though the evicted record (1,1) was flushed and sits in the backing
file: `iter` reads the file from its end-of-file offset and never sees
it. -/
theorem c1_flushed_counts_lost :
    sumCounts (Collector.iter c1Final).2 1 = 0 ∧
    ([1, 2, 3, 4, 5, 6].filter fun k => decide (k = 1)).length = 1 ∧
    c1Final.temp_array.file_data = [{ item := 1, count := 1 }] ∧
    (Collector.iter c1Final).2.length = 5 := by
  refine ⟨rfl, rfl, rfl, rfl⟩

/-! Branch lemmas for Bucket::add. -/

theorem Bucket.mem_items_iff {α : Type} (b : Bucket α) (key : α) :
    key ∈ b.items ↔ ∃ e ∈ b.entries, e.item = key := by
  simp [Bucket.items]

theorem Bucket.add_hit {α : Type} [DecidableEq α] (b : Bucket α) (key : α)
    (hhit : key ∈ b.items) :
    b.add key = ({ entries := b.entries.map fun e =>
      if e.item = key then { e with count := e.count + 1 } else e }, none) := by
  have hdone : (b.entries.any fun e => decide (e.item = key)) = true := by
    rw [List.any_eq_true]
    obtain ⟨e, he, heq⟩ := (Bucket.mem_items_iff b key).mp hhit
    exact ⟨e, he, by simp [heq]⟩
  simp [Bucket.add, hdone]

theorem Bucket.add_miss_not_full {α : Type} [DecidableEq α] (b : Bucket α)
    (key : α) (hmiss : key ∉ b.items)
    (hlen : b.entries.length < BUCKETS_ASSOCIATIVITY) :
    b.add key =
      ({ entries := b.entries ++ [{ item := key, count := 1 }] }, none) := by
  have hdone : (b.entries.any fun e => decide (e.item = key)) = false := by
    rw [List.any_eq_false]
    intro e he
    simp only [decide_eq_true_eq]
    exact fun heq => hmiss ((Bucket.mem_items_iff b key).mpr ⟨e, he, heq⟩)
  simp [Bucket.add, hdone, hlen]

theorem Bucket.add_miss_full {α : Type} [DecidableEq α] (b : Bucket α)
    (key : α) (hmiss : key ∉ b.items)
    (hlen : ¬ b.entries.length < BUCKETS_ASSOCIATIVITY) :
    b.add key =
      ({ entries := b.entries.set (minIndex (b.entries.map Entry.count))
          { item := key, count := 1 } },
        b.entries.get? (minIndex (b.entries.map Entry.count))) := by
  have hdone : (b.entries.any fun e => decide (e.item = key)) = false := by
    rw [List.any_eq_false]
    intro e he
    simp only [decide_eq_true_eq]
    exact fun heq => hmiss ((Bucket.mem_items_iff b key).mpr ⟨e, he, heq⟩)
  simp [Bucket.add, hdone, hlen]

/-! The min scan of the full-bucket branch finds the first index of the
minimal count. -/

theorem minIndexScan_spec (rest : List Nat) :
    ∀ (pre : List Nat) (minIdx minCount : Nat),
      minIdx < pre.length →
      pre.getD minIdx 0 = minCount →
      (∀ j, j < pre.length → minCount ≤ pre.getD j 0) →
      (∀ j, j < minIdx → minCount < pre.getD j 0) →
      minIndexScan rest pre.length minIdx minCount < (pre ++ rest).length ∧
      (∀ j, j < (pre ++ rest).length →
        (pre ++ rest).getD (minIndexScan rest pre.length minIdx minCount) 0 ≤
          (pre ++ rest).getD j 0) ∧
      (∀ j, j < minIndexScan rest pre.length minIdx minCount →
        (pre ++ rest).getD (minIndexScan rest pre.length minIdx minCount) 0 <
          (pre ++ rest).getD j 0) := by
  induction rest with
  | nil =>
    intro pre minIdx minCount h1 h2 h3 h4
    simp only [minIndexScan, List.append_nil]
    exact ⟨h1, fun j hj => h2 ▸ h3 j hj, fun j hj => h2 ▸ h4 j hj⟩
  | cons c rest ih =>
    intro pre minIdx minCount h1 h2 h3 h4
    rw [List.append_cons]
    have hlen1 : (pre ++ [c]).length = pre.length + 1 := by simp
    have hgetc : (pre ++ [c]).getD pre.length 0 = c := by
      rw [List.getD_append_right pre [c] 0 pre.length (Nat.le_refl _)]
      simp
    by_cases hc : c < minCount
    · have hscan : minIndexScan (c :: rest) pre.length minIdx minCount =
          minIndexScan rest (pre ++ [c]).length pre.length c := by
        rw [hlen1]
        simp [minIndexScan, hc]
      rw [hscan]
      refine ih (pre ++ [c]) pre.length c (by omega) hgetc ?_ ?_
      · intro j hj
        rcases Nat.lt_or_ge j pre.length with hj2 | hj2
        · rw [List.getD_append pre [c] 0 j hj2]
          exact Nat.le_of_lt (Nat.lt_of_lt_of_le hc (h3 j hj2))
        · have : j = pre.length := by omega
          rw [this, hgetc]
      · intro j hj
        rw [List.getD_append pre [c] 0 j hj]
        exact Nat.lt_of_lt_of_le hc (h3 j hj)
    · have hscan : minIndexScan (c :: rest) pre.length minIdx minCount =
          minIndexScan rest (pre ++ [c]).length minIdx minCount := by
        rw [hlen1]
        simp [minIndexScan, hc]
      rw [hscan]
      refine ih (pre ++ [c]) minIdx minCount (by omega) ?_ ?_ ?_
      · rw [List.getD_append pre [c] 0 minIdx h1]
        exact h2
      · intro j hj
        rcases Nat.lt_or_ge j pre.length with hj2 | hj2
        · rw [List.getD_append pre [c] 0 j hj2]
          exact h3 j hj2
        · have : j = pre.length := by omega
          rw [this, hgetc]
          exact Nat.le_of_not_lt hc
      · intro j hj
        rw [List.getD_append pre [c] 0 j (Nat.lt_trans hj h1)]
        exact h4 j hj

theorem minIndex_spec (c : Nat) (tl : List Nat) :
    minIndex (c :: tl) < (c :: tl).length ∧
    (∀ j, j < (c :: tl).length →
      (c :: tl).getD (minIndex (c :: tl)) 0 ≤ (c :: tl).getD j 0) ∧
    (∀ j, j < minIndex (c :: tl) →
      (c :: tl).getD (minIndex (c :: tl)) 0 < (c :: tl).getD j 0) := by
  have hstep : minIndex (c :: tl) = minIndexScan tl [c].length 0 c := by
    simp [minIndex, minIndexScan]
  have hspec := minIndexScan_spec tl [c] 0 c (by simp) (by simp)
    (fun j hj => by
      have hj0 : j = 0 := Nat.lt_one_iff.mp (by simpa using hj)
      simp [hj0])
    (fun j hj => by omega)
  rw [List.singleton_append] at hspec
  rw [hstep]
  exact hspec

/-- On a full bucket with a fresh key, `add` replaces the slot holding the
first minimal count and returns the displaced entry (shared backbone of the
eviction results). -/
theorem Bucket.add_full_spec {α : Type} [DecidableEq α] (b : Bucket α)
    (key : α) (hfull : b.entries.length = BUCKETS_ASSOCIATIVITY)
    (hfresh : ∀ e ∈ b.entries, e.item ≠ key) :
    ∃ i, i < b.entries.length ∧
      (∀ j, j < b.entries.length →
        (b.entries.map Entry.count).getD i 0 ≤
          (b.entries.map Entry.count).getD j 0) ∧
      (∀ j, j < i →
        (b.entries.map Entry.count).getD i 0 <
          (b.entries.map Entry.count).getD j 0) ∧
      (b.add key).1.entries = b.entries.set i { item := key, count := 1 } ∧
      (b.add key).2 = b.entries.get? i := by
  have hmiss : key ∉ b.items := by
    rw [Bucket.mem_items_iff]
    rintro ⟨e, he, heq⟩
    exact hfresh e he heq
  have hlen : ¬ b.entries.length < BUCKETS_ASSOCIATIVITY := by omega
  have hadd := Bucket.add_miss_full b key hmiss hlen
  obtain ⟨c, tl, hcs⟩ : ∃ c tl, b.entries.map Entry.count = c :: tl := by
    cases hb : b.entries with
    | nil =>
      exfalso
      rw [hb] at hfull
      exact absurd hfull.symm (by simp [BUCKETS_ASSOCIATIVITY])
    | cons e es => exact ⟨e.count, es.map Entry.count, rfl⟩
  have hspec := minIndex_spec c tl
  rw [← hcs] at hspec
  have hml : (b.entries.map Entry.count).length = b.entries.length :=
    List.length_map _ _
  refine ⟨minIndex (b.entries.map Entry.count), ?_, ?_, hspec.2.2,
    by rw [hadd], by rw [hadd]⟩
  · rw [← hml]
    exact hspec.1
  · intro j hj
    exact hspec.2.1 j (by rw [hml]; exact hj)

/-- C4: on a full bucket (length = C = 4) and a key matching no resident
entry, `add` replaces in place the slot `i` holding the first minimal count
(left-to-right scan, strict improvement only, so the first minimum wins
ties) with the new entry (key, count 1), and returns the displaced entry
itself, its accumulated count untouched. -/
theorem c4_eviction_first_min {α : Type} [DecidableEq α] (b : Bucket α)
    (key : α) (hfull : b.entries.length = BUCKETS_ASSOCIATIVITY)
    (hfresh : ∀ e ∈ b.entries, e.item ≠ key) :
    ∃ i, i < b.entries.length ∧
      (∀ j, j < b.entries.length →
        (b.entries.map Entry.count).getD i 0 ≤
          (b.entries.map Entry.count).getD j 0) ∧
      (∀ j, j < i →
        (b.entries.map Entry.count).getD i 0 <
          (b.entries.map Entry.count).getD j 0) ∧
      (b.add key).1.entries = b.entries.set i { item := key, count := 1 } ∧
      (b.add key).2 = b.entries.get? i :=
  Bucket.add_full_spec b key hfull hfresh

/-- A concrete full bucket whose first minimal count sits at slot 1. -/
def c4b : Bucket Nat :=
  { entries := [{ item := 10, count := 3 }, { item := 11, count := 1 },
      { item := 12, count := 2 }, { item := 13, count := 1 }] }

theorem c4_eviction_first_min_witness :
    c4b.entries.length = BUCKETS_ASSOCIATIVITY ∧
    (∀ e ∈ c4b.entries, e.item ≠ 99) ∧
    ∃ i, i < c4b.entries.length ∧
      (∀ j, j < c4b.entries.length →
        (c4b.entries.map Entry.count).getD i 0 ≤
          (c4b.entries.map Entry.count).getD j 0) ∧
      (∀ j, j < i →
        (c4b.entries.map Entry.count).getD i 0 <
          (c4b.entries.map Entry.count).getD j 0) ∧
      (c4b.add 99).1.entries = c4b.entries.set i { item := 99, count := 1 } ∧
      (c4b.add 99).2 = c4b.entries.get? i :=
  ⟨rfl, by decide, c4_eviction_first_min c4b 99 rfl (by decide)⟩

/-! Invariant machinery for Bucket. -/

/-- The count-increment pass of Bucket::add does not change the keys. -/
theorem Bucket.items_map_inc {α : Type} [DecidableEq α]
    (l : List (Entry α)) (key : α) :
    (l.map fun e =>
      if e.item = key then { e with count := e.count + 1 } else e).map
        Entry.item = l.map Entry.item := by
  rw [List.map_map]
  refine List.map_congr_left fun e _ => ?_
  by_cases h : e.item = key <;> simp [h]

/-- Setting a slot to a fresh element keeps a duplicate-free list
duplicate-free. -/
theorem nodup_set_of_not_mem {β : Type} :
    ∀ {l : List β} {i : Nat} {a : β}, l.Nodup → a ∉ l → (l.set i a).Nodup
  | [], _, _, _, _ => List.nodup_nil
  | x :: xs, 0, a, h, ha => by
    rw [List.set_cons_zero]
    rw [List.nodup_cons] at h ⊢
    exact ⟨fun hmem => ha (List.mem_cons_of_mem x hmem), h.2⟩
  | x :: xs, i + 1, a, h, ha => by
    rw [List.set_cons_succ]
    rw [List.nodup_cons] at h ⊢
    refine ⟨fun hmem => ?_, nodup_set_of_not_mem h.2
      fun hmem => ha (List.mem_cons_of_mem x hmem)⟩
    rcases List.mem_or_eq_of_mem_set hmem with hx | hx
    · exact h.1 hx
    · exact ha (hx ▸ List.mem_cons_self x xs)

/-- One Bucket::add call keeps the occupied keys pairwise distinct. -/
theorem Bucket.nodup_items_add {α : Type} [DecidableEq α] (b : Bucket α)
    (key : α) (h : b.items.Nodup) : ((b.add key).1).items.Nodup := by
  by_cases hhit : key ∈ b.items
  · rw [Bucket.add_hit b key hhit]
    show ((b.entries.map _).map Entry.item).Nodup
    rw [Bucket.items_map_inc]
    exact h
  · by_cases hlen : b.entries.length < BUCKETS_ASSOCIATIVITY
    · rw [Bucket.add_miss_not_full b key hhit hlen]
      show ((b.entries ++
        [({ item := key, count := 1 } : Entry α)]).map Entry.item).Nodup
      rw [List.map_append]
      rw [List.nodup_append]
      refine ⟨h, List.nodup_singleton key, fun a ha hk => ?_⟩
      have : a = key := by simpa using hk
      exact hhit (this ▸ ha)
    · rw [Bucket.add_miss_full b key hhit hlen]
      show ((b.entries.set _ _).map Entry.item).Nodup
      rw [List.map_set]
      exact nodup_set_of_not_mem h hhit

/-- Every state reached from the empty bucket keeps the occupied keys
pairwise distinct. -/
theorem Bucket.nodup_items_addList {α : Type} [DecidableEq α] :
    ∀ (ks : List α) (b : Bucket α), b.items.Nodup →
      ((b.addList ks)).items.Nodup
  | [], _, h => h
  | k :: rest, b, h =>
    Bucket.nodup_items_addList rest (b.add k).1
      (Bucket.nodup_items_add b k h)

/-- C6: the occupied prefix of a bucket holds pairwise-distinct keys: every
Bucket::add call preserves distinctness, and every state reachable from the
empty bucket by a sequence of adds satisfies it. -/
theorem c6_no_duplicate_keys {α : Type} [DecidableEq α] :
    (∀ (b : Bucket α) (key : α), b.items.Nodup →
      ((b.add key).1).items.Nodup) ∧
    (∀ ks : List α, ((Bucket.init : Bucket α).addList ks).items.Nodup) :=
  ⟨Bucket.nodup_items_add,
    fun ks => Bucket.nodup_items_addList ks Bucket.init List.nodup_nil⟩

theorem c6_no_duplicate_keys_witness :
    c4b.items.Nodup ∧ ((c4b.add 99).1).items.Nodup :=
  ⟨by decide, (c6_no_duplicate_keys (α := Nat)).1 c4b 99 (by decide)⟩

/-- The length-and-count invariant of a bucket: at most C = 4 occupied
slots, every occupied count at least 1. -/
def Bucket.Inv {α : Type} (b : Bucket α) : Prop :=
  b.entries.length ≤ BUCKETS_ASSOCIATIVITY ∧ ∀ e ∈ b.entries, 1 ≤ e.count

instance {α : Type} [DecidableEq α] (b : Bucket α) :
    Decidable (Bucket.Inv b) := by
  unfold Bucket.Inv
  infer_instance

/-- One Bucket::add call preserves the length-and-count invariant. -/
theorem Bucket.inv_add {α : Type} [DecidableEq α] (b : Bucket α) (key : α)
    (h : b.Inv) : ((b.add key).1).Inv := by
  obtain ⟨hlen, hcount⟩ := h
  by_cases hhit : key ∈ b.items
  · rw [Bucket.add_hit b key hhit]
    constructor
    · simpa using hlen
    · intro e he
      rw [List.mem_map] at he
      obtain ⟨e0, he0, rfl⟩ := he
      by_cases h0 : e0.item = key
      · simp [h0]
      · simpa [h0] using hcount e0 he0
  · by_cases hfree : b.entries.length < BUCKETS_ASSOCIATIVITY
    · rw [Bucket.add_miss_not_full b key hhit hfree]
      constructor
      · simpa using hfree
      · intro e he
        rcases List.mem_append.mp he with he | he
        · exact hcount e he
        · simp at he
          simp [he]
    · rw [Bucket.add_miss_full b key hhit hfree]
      constructor
      · simpa using hlen
      · intro e he
        rcases List.mem_or_eq_of_mem_set he with he | he
        · exact hcount e he
        · simp [he]

/-- Every state reached from the empty bucket satisfies the
length-and-count invariant. -/
theorem Bucket.inv_addList {α : Type} [DecidableEq α] :
    ∀ (ks : List α) (b : Bucket α), b.Inv → (b.addList ks).Inv
  | [], _, h => h
  | k :: rest, b, h =>
    Bucket.inv_addList rest (b.add k).1 (Bucket.inv_add b k h)

/-- C8: for every bucket state reachable from the empty bucket, the
occupied length stays within [0, C] and every occupied count is at least 1,
and every single Bucket::add call preserves both. -/
theorem c8_count_length_invariant {α : Type} [DecidableEq α] :
    (∀ (b : Bucket α) (key : α), b.Inv → ((b.add key).1).Inv) ∧
    (∀ ks : List α, ((Bucket.init : Bucket α).addList ks).Inv) :=
  ⟨Bucket.inv_add,
    fun ks => Bucket.inv_addList ks Bucket.init ⟨by simp [Bucket.init], by
      simp [Bucket.init]⟩⟩

theorem c8_count_length_invariant_witness :
    c4b.Inv ∧ ((c4b.add 99).1).Inv :=
  ⟨by decide, (c8_count_length_invariant (α := Nat)).1 c4b 99 (by decide)⟩

/-- The count list read at an in-range position is the count of the entry
there. -/
theorem getD_count {α : Type} (l : List (Entry α)) (j : Nat)
    (hj : j < l.length) :
    (l.map Entry.count).getD j 0 = (l.get ⟨j, hj⟩).count := by
  rw [List.getD_eq_getElem (l.map Entry.count) 0 (by simpa using hj)]
  simp

theorem Bucket.addListEv_nil {α : Type} [DecidableEq α] (b : Bucket α) :
    b.addListEv [] = (b, []) := rfl

theorem Bucket.addListEv_cons {α : Type} [DecidableEq α] (b : Bucket α)
    (k : α) (rest : List α) :
    b.addListEv (k :: rest) =
      ((Bucket.addListEv (b.add k).1 rest).1,
        (b.add k).2.toList ++ (Bucket.addListEv (b.add k).1 rest).2) := rfl

/-- While the keys fed to a bucket span at most C = 4 distinct values
(counting the ones already resident), no add ever evicts, the resident key
set ends up the union of the old one and the fed keys, and distinctness is
kept. -/
theorem Bucket.addListEv_no_evict {α : Type} [DecidableEq α] :
    ∀ (ks : List α) (b : Bucket α), b.items.Nodup →
      (b.items ++ ks).toFinset.card ≤ BUCKETS_ASSOCIATIVITY →
      (b.addListEv ks).2 = [] ∧
      (b.addListEv ks).1.items.toFinset = (b.items ++ ks).toFinset ∧
      (b.addListEv ks).1.items.Nodup := by
  intro ks
  induction ks with
  | nil =>
    intro b hnd hcard
    rw [Bucket.addListEv_nil]
    exact ⟨rfl, by simp, hnd⟩
  | cons k rest ih =>
    intro b hnd hcard
    rw [Bucket.addListEv_cons]
    by_cases hhit : k ∈ b.items
    · have hsame : (b.items ++ (k :: rest)).toFinset =
          (b.items ++ rest).toFinset := by
        rw [List.toFinset_append, List.toFinset_append, List.toFinset_cons,
          Finset.union_insert, Finset.insert_eq_self]
        exact Finset.mem_union_left _ (List.mem_toFinset.mpr hhit)
      have hstep := Bucket.add_hit b k hhit
      have hitems : ((b.add k).1).items = b.items := by
        rw [hstep]
        show ((b.entries.map _).map Entry.item) = b.entries.map Entry.item
        exact Bucket.items_map_inc b.entries k
      have hrec := ih (b.add k).1 (hitems ▸ hnd)
        (by rw [hitems, ← hsame] at *; exact hcard)
      refine ⟨?_, ?_, hrec.2.2⟩
      · have h2 : (b.add k).2 = none := by rw [hstep]
        rw [h2]
        simpa using hrec.1
      · rw [hrec.2.1, hitems, hsame]
    · have hfree : b.entries.length < BUCKETS_ASSOCIATIVITY := by
        have hsub : insert k b.items.toFinset ⊆
            (b.items ++ (k :: rest)).toFinset := by
          rw [List.toFinset_append, List.toFinset_cons]
          intro a ha
          rcases Finset.mem_insert.mp ha with rfl | ha
          · exact Finset.mem_union_right _ (Finset.mem_insert_self a _)
          · exact Finset.mem_union_left _ ha
        have hcardin := Finset.card_le_card hsub
        rw [Finset.card_insert_of_not_mem
          (fun hm => hhit (List.mem_toFinset.mp hm))] at hcardin
        have hlitems : b.items.toFinset.card = b.items.length :=
          List.toFinset_card_of_nodup hnd
        have hlen : b.items.length = b.entries.length :=
          List.length_map _ _
        omega
      have hstep := Bucket.add_miss_not_full b k hhit hfree
      have hitems : ((b.add k).1).items = b.items ++ [k] := by
        rw [hstep]
        show ((b.entries ++
          [({ item := k, count := 1 } : Entry α)]).map Entry.item) = _
        rw [List.map_append]
        rfl
      have hnd1 : ((b.add k).1).items.Nodup := by
        rw [hitems, List.nodup_append]
        refine ⟨hnd, List.nodup_singleton k, fun a ha hk => ?_⟩
        have : a = k := by simpa using hk
        exact hhit (this ▸ ha)
      have hsame : (((b.add k).1).items ++ rest).toFinset =
          (b.items ++ (k :: rest)).toFinset := by
        rw [hitems, List.toFinset_append, List.toFinset_append,
          List.toFinset_append, List.toFinset_cons, Finset.union_insert]
        simp [Finset.union_assoc]
      have hrec := ih (b.add k).1 hnd1 (by rw [hsame]; exact hcard)
      refine ⟨?_, ?_, hrec.2.2⟩
      · have h2 : (b.add k).2 = none := by rw [hstep]
        rw [h2]
        simpa using hrec.1
      · rw [hrec.2.1, hsame]

/-- C5: feeding a bucket any sequence of keys spanning at most C = 4
distinct values never evicts; after a sequence spanning exactly 4 distinct
values, adding a fresh 5th key evicts exactly one resident entry, one whose
count is minimal among the occupied slots at that moment. -/
theorem c5_admission {α : Type} [DecidableEq α] :
    (∀ ks : List α, ks.toFinset.card ≤ BUCKETS_ASSOCIATIVITY →
      ((Bucket.init : Bucket α).addListEv ks).2 = []) ∧
    (∀ (ks : List α) (key : α),
      ks.toFinset.card = BUCKETS_ASSOCIATIVITY → key ∉ ks →
      ∃ ev : Entry α,
        (((Bucket.init : Bucket α).addListEv ks).1.add key).2 = some ev ∧
        ev ∈ ((Bucket.init : Bucket α).addListEv ks).1.entries ∧
        ∀ e ∈ ((Bucket.init : Bucket α).addListEv ks).1.entries,
          ev.count ≤ e.count) := by
  have hinit : (Bucket.init : Bucket α).items = [] := rfl
  constructor
  · intro ks hcard
    exact (Bucket.addListEv_no_evict ks Bucket.init List.nodup_nil
      (by rw [hinit]; simpa using hcard)).1
  · intro ks key hcard hfresh
    obtain ⟨-, hset, hnd⟩ := Bucket.addListEv_no_evict ks Bucket.init
      List.nodup_nil (by rw [hinit]; simpa using Nat.le_of_eq hcard)
    set b := ((Bucket.init : Bucket α).addListEv ks).1 with hb
    have hbitems : b.items.toFinset = ks.toFinset := by
      rw [hset, hinit]
      simp
    have hblen : b.entries.length = BUCKETS_ASSOCIATIVITY := by
      have h1 : b.items.toFinset.card = b.items.length :=
        List.toFinset_card_of_nodup hnd
      have h2 : b.items.length = b.entries.length := List.length_map _ _
      rw [hbitems, hcard] at h1
      omega
    have hbfresh : ∀ e ∈ b.entries, e.item ≠ key := by
      intro e he heq
      have : key ∈ b.items := (Bucket.mem_items_iff b key).mpr ⟨e, he, heq⟩
      have : key ∈ ks.toFinset := hbitems ▸ List.mem_toFinset.mpr this
      exact hfresh (List.mem_toFinset.mp this)
    obtain ⟨i, hi, hmin, -, -, hev⟩ :=
      Bucket.add_full_spec b key hblen hbfresh
    refine ⟨b.entries.get ⟨i, hi⟩, ?_, List.get_mem b.entries i hi, ?_⟩
    · rw [hev, List.get?_eq_get hi]
    · intro e he
      obtain ⟨⟨j, hj⟩, rfl⟩ := List.mem_iff_get.mp he
      have h1 := hmin j hj
      rw [getD_count b.entries i hi, getD_count b.entries j hj] at h1
      exact h1

theorem c5_admission_witness :
    (([1, 2, 3, 4] : List Nat).toFinset.card ≤ BUCKETS_ASSOCIATIVITY) ∧
    ((Bucket.init : Bucket Nat).addListEv [1, 2, 3, 4]).2 = [] ∧
    (∃ ev : Entry Nat,
      (((Bucket.init : Bucket Nat).addListEv [1, 2, 3, 4]).1.add 5).2 =
        some ev ∧
      ev ∈ ((Bucket.init : Bucket Nat).addListEv [1, 2, 3, 4]).1.entries ∧
      ∀ e ∈ ((Bucket.init : Bucket Nat).addListEv [1, 2, 3, 4]).1.entries,
        ev.count ≤ e.count) :=
  ⟨by decide, (c5_admission (α := Nat)).1 [1, 2, 3, 4] (by decide),
    (c5_admission (α := Nat)).2 [1, 2, 3, 4] 5 (by decide) (by decide)⟩

/-! The iterator of a bucket yields exactly the occupied prefix. -/

theorem BucketIterator.collectFuel_eq {α : Type} (b : Bucket α) :
    ∀ (n i : Nat), b.entries.length ≤ i + n →
      BucketIterator.collectFuel n { related_bucket := b, index := i } =
        b.entries.drop i := by
  intro n
  induction n with
  | zero =>
    intro i h
    rw [List.drop_eq_nil_of_le (by simpa using h)]
    rfl
  | succ n ih =>
    intro i h
    by_cases hlt : i < b.entries.length
    · have hstep : BucketIterator.collectFuel (n + 1)
          { related_bucket := b, index := i } =
          b.entries.get ⟨i, hlt⟩ ::
            BucketIterator.collectFuel n
              { related_bucket := b, index := i + 1 } := by
        simp [BucketIterator.collectFuel, BucketIterator.next, hlt]
      rw [hstep, ih (i + 1) (by omega), List.drop_eq_getElem_cons hlt]
      simp
    · rw [List.drop_eq_nil_of_le (Nat.le_of_not_lt hlt)]
      simp [BucketIterator.collectFuel, BucketIterator.next, hlt]

theorem Bucket.iterList_eq {α : Type} (b : Bucket α) :
    b.iterList = b.entries := by
  rw [Bucket.iterList,
    BucketIterator.collectFuel_eq b b.entries.length 0 (by omega)]
  exact List.drop_zero _

/-- C7: `StackHashCounter::iter` reads the state without mutating it (the
iterator state machine never changes its `related_bucket`), so two
consecutive drains of the same counter return the same sequence, namely the
concatenation of every bucket's occupied prefix in bucket-index order. -/
theorem c7_iter_idempotent {α : Type} (s : StackHashCounter α) :
    StackHashCounter.iter s = StackHashCounter.iter s ∧
    StackHashCounter.iter s = (s.buckets.map Bucket.entries).flatten ∧
    (∀ it : BucketIterator α,
      ((it.next).2).related_bucket = it.related_bucket) := by
  refine ⟨rfl, ?_, ?_⟩
  · rw [StackHashCounter.iter]
    congr 1
    exact List.map_congr_left fun b _ => Bucket.iterList_eq b
  · intro it
    rw [BucketIterator.next]
    by_cases h : it.index < it.related_bucket.entries.length <;> simp [h]

end Pprof
